import Mathlib

/-!
Verification of the Hankel-matrix conjecture engine (`hankel.py`).

The Python program builds symbolic Hankel submatrices over an indexed
element symbol (entry at row index `r`, column index `c` is
`element_symbol[r + c]`), takes determinants of square sub-selections
("minors"), and checks claimed identities among minors by an exact
symbolic zero test (`sympy.Expr.equals`).

Shallow embedding conventions:
* A symbolic interpretation of the indexed element symbol is an arbitrary
  function `h : ℤ → R` into an arbitrary commutative ring `R`; index
  expressions (integer literals or free integer symbols) are interpreted
  as integers, quantified universally.  A sympy expression built from
  minors is "identically zero" (the semantics of a successful
  `expr.equals(0)`) exactly when it vanishes for every such
  interpretation, i.e. as a polynomial identity in the indexed atoms.
* Fallible Python operations (exceptions such as sympy's
  `NonSquareMatrixError` on `det`, an `IndexError` on list access, or
  the `AttributeError` from calling `.equals` on a plain `int`) are
  modelled by `Option`: `none` means the call raises.
* LaTeX rendering is modelled at token granularity (`Tok`): each atomic
  piece of output that the source emits becomes one token, so that
  "the output contains a raw element-symbol subscript" is a decidable
  membership statement instead of a string-matching one.
* The mutable memoization field `self.valid` (`None`/`True`/`False`) is
  modelled as `Option Bool` state; the state transformers of `check` and
  `format` are explicit functions of the (deterministic) result of the
  symbolic engine and the current state.
-/

namespace Hankel

/-- `HankelMatrix.submatrix(rows, columns)` (hankel.py lines 33-38):
the matrix `[[element_symbol[r + c] for c in columns] for r in rows]`,
a `len(rows) × len(columns)` matrix, built with no length or
distinctness constraint.  `getD` with default `0` is only ever read at
indices below the list length (forced by the `Fin` bounds), where it is
list lookup. -/
def submatrix {R : Type} [CommRing R] (h : ℤ → R) (rows columns : List ℤ) :
    Matrix (Fin rows.length) (Fin columns.length) R :=
  Matrix.of fun i j => h (rows.getD i.1 0 + columns.getD j.1 0)

/-- Modelled from the spec (§4.1, §7): the spec asserts that a rows/columns
length mismatch "passed to `minor`/`submatrix`" raises DimensionMismatch,
i.e. that `submatrix` itself is only defined for equal lengths.  This
refinement definition follows the spec's words, to be compared with the
source's `submatrix` above (which imposes no such check). -/
def submatrixSpec? {R : Type} [CommRing R] (h : ℤ → R) (rows columns : List ℤ) :
    Option (Matrix (Fin rows.length) (Fin columns.length) R) :=
  if rows.length = columns.length then some (submatrix h rows columns) else none

/-- `HankelMatrix.minor(rows, columns)` (hankel.py lines 24-31):
`submatrix(rows, columns).det()`.  sympy's `det` raises
`NonSquareMatrixError` unless the matrix is square, i.e. unless
`len(columns) = len(rows)`; a raised exception is `none`. -/
def minor? {R : Type} [CommRing R] (h : ℤ → R) (rows columns : List ℤ) : Option R :=
  if hcl : columns.length = rows.length then
    some (Matrix.det (Matrix.of fun i j : Fin rows.length =>
      submatrix h rows columns i ⟨j.1, by rw [hcl]; exact j.2⟩))
  else none

/-- Determinant of the `n × n` matrix of Hankel entries drawn from
row-index function `r` and column-index function `c`; the common
`ℕ`-indexed form of every square minor appearing below. -/
def detH {R : Type} [CommRing R] (h : ℤ → R) (n : ℕ) (r c : ℕ → ℤ) : R :=
  Matrix.det (Matrix.of fun i j : Fin n => h (r i.1 + c j.1))

/-- Sequencing of fallible Python iteration: evaluate `f` on each element
in order, failing (exception) as soon as one call fails. -/
def omap {α β : Type} (f : α → Option β) : List α → Option (List β)
  | [] => some []
  | a :: l => do
      let b ← f a
      let bs ← omap f l
      pure (b :: bs)

/-- One loop iteration of `Conjecture_increment.__init__` (hankel.py lines
136-142) at position `i`: reads `rows[i]` and `columns[i]` (the latter
raises `IndexError` when `i ≥ len(columns)`, aborting construction) and
produces the pair of derived minor specifications
`(rows with rows[i]+delta, columns)` and `(rows, columns with
columns[i]+delta)`. -/
def incPairs (rows columns : List ℤ) (δ : ℤ) (i : ℕ) :
    Option ((List ℤ × List ℤ) × (List ℤ × List ℤ)) :=
  match rows[i]?, columns[i]? with
  | some ri, some ci =>
      some ((rows.set i (ri + δ), columns), (rows, columns.set i (ci + δ)))
  | _, _ => none

/-- `Conjecture_increment.__init__` (hankel.py lines 126-142): eagerly
derives `row_minors` and `column_minors`, iterating over
`range(len(rows))`; `none` models an `IndexError` escaping the
constructor. -/
def incInit (rows columns : List ℤ) (δ : ℤ) :
    Option (List (List ℤ × List ℤ) × List (List ℤ × List ℤ)) :=
  (omap (incPairs rows columns δ) (List.range rows.length)).map fun ps =>
    (ps.map Prod.fst, ps.map Prod.snd)

/-- Sum of the minors of a list of minor specifications, failing if any
`minor` call raises. -/
def sumMinors? {R : Type} [CommRing R] (h : ℤ → R) (ms : List (List ℤ × List ℤ)) : Option R :=
  (omap (fun m => minor? h m.1 m.2) ms).map List.sum

/-- `Conjecture_increment.check` (hankel.py lines 144-152) on an already
constructed instance: `expr` is the sum of the `row_minors` minors less
the sum of the `column_minors` minors, and the method returns
`expr.equals(0)`.  When both loops are empty `expr` is still the plain
Python `int` `0`, and `(0).equals(0)` raises `AttributeError` (`int` has
no `equals` method), hence `none` in that case.  The returned value is
the symbolic difference, judged against zero by `incValid` below. -/
def incCheckRun? {R : Type} [CommRing R] (h : ℤ → R)
    (rm cm : List (List ℤ × List ℤ)) : Option R := do
  let s1 ← sumMinors? h rm
  let s2 ← sumMinors? h cm
  if rm.isEmpty && cm.isEmpty then none else pure (s1 - s2)

/-- Construction followed by `check()` for `Conjecture_increment`. -/
def incCheck? {R : Type} [CommRing R] (h : ℤ → R) (rows columns : List ℤ) (δ : ℤ) :
    Option R := do
  let p ← incInit rows columns δ
  incCheckRun? h p.1 p.2

/-- `check()` of an increment conjecture returns `Valid`: the run does
not raise and the difference expression is identically zero, i.e. zero
under every interpretation of the element symbol in every commutative
ring (the semantics of a successful exact `expr.equals(0)`). -/
def incValid (rows columns : List ℤ) (δ : ℤ) : Prop :=
  ∀ (R : Type) [CommRing R] (h : ℤ → R), incCheck? h rows columns δ = some 0

/-- `Conjecture_1plus2equals3.check` (hankel.py lines 104-109): computes
the three minors and tests `(det1 + det2).equals(det3)`; the returned
value is the difference expression `det1 + det2 - det3`, judged against
zero by `plusValid`. -/
def plusCheck? {R : Type} [CommRing R] (h : ℤ → R) (m1 m2 m3 : List ℤ × List ℤ) :
    Option R := do
  let d1 ← minor? h m1.1 m1.2
  let d2 ← minor? h m2.1 m2.2
  let d3 ← minor? h m3.1 m3.2
  pure (d1 + d2 - d3)

/-- `check()` of a sum-equality conjecture returns `Valid`:
`minor(minor1) + minor(minor2)` is identically equal to `minor(minor3)`. -/
def plusValid (m1 m2 m3 : List ℤ × List ℤ) : Prop :=
  ∀ (R : Type) [CommRing R] (h : ℤ → R), plusCheck? h m1 m2 m3 = some 0

/-- Modelled from the spec: the zero-minor biconditional conjecture
variant (spec §4.2, parameters zero_minor, minor1, minor2) is absent from
`src/hankel.py` (the spec notes that "four near-duplicate source
variants collapse into one unified engine"; only two variants appear in
the file under src/).  First tested difference expression per the spec:
`minor(zero_minor) − minor(minor1) + minor(minor2)`. -/
def zeroCheck1? {R : Type} [CommRing R] (h : ℤ → R) (z m1 m2 : List ℤ × List ℤ) :
    Option R := do
  let d0 ← minor? h z.1 z.2
  let d1 ← minor? h m1.1 m1.2
  let d2 ← minor? h m2.1 m2.2
  pure (d0 - d1 + d2)

/-- Modelled from the spec: second tested difference expression of the
zero-minor biconditional variant,
`minor(zero_minor) + minor(minor1) − minor(minor2)`. -/
def zeroCheck2? {R : Type} [CommRing R] (h : ℤ → R) (z m1 m2 : List ℤ × List ℤ) :
    Option R := do
  let d0 ← minor? h z.1 z.2
  let d1 ← minor? h m1.1 m1.2
  let d2 ← minor? h m2.1 m2.2
  pure (d0 + d1 - d2)

/-- Modelled from the spec: the zero-minor biconditional conjecture is
`Valid` iff either of the two difference expressions is identically
zero (either sign convention accepted). -/
def zeroValid (z m1 m2 : List ℤ × List ℤ) : Prop :=
  (∀ (R : Type) [CommRing R] (h : ℤ → R), zeroCheck1? h z m1 m2 = some 0) ∨
  (∀ (R : Type) [CommRing R] (h : ℤ → R), zeroCheck2? h z m1 m2 = some 0)

/-- `Conjecture.format` (hankel.py lines 71-80) state effect: the mutable
`self.valid` attribute (line 61) is `none` for Python `None` (Unknown),
`some b` for a stored boolean; sympy's `equals` is tri-valued
(`True`/`False`/`None`) and a deterministic run of the symbolic engine
is abstracted by its result `checkResult : Option Bool`.  When
`self.valid is None` it runs `self.valid = self.check()` (one expensive
check computation, flagged `true` in the second component) and otherwise
leaves the state untouched performing no computation.  For both source
variants the net state after `format` on an unresolved conjecture is the
check result (for `Conjecture_1plus2equals3`, `check` itself stores the
result and the assignment re-stores it; for `Conjecture_increment` only
the assignment stores it). -/
def formatValidUpdate (checkResult valid : Option Bool) : Option Bool × Bool :=
  if valid = none then (checkResult, true) else (valid, false)

/-- `Conjecture_1plus2equals3.check` (hankel.py lines 104-109) state
effect: always recomputes (second component `true`) and always stores
the result via `self.valid = ...`. -/
def sumEqCheckUpdate (checkResult _valid : Option Bool) : Option Bool × Bool :=
  (checkResult, true)

/-- `Conjecture_increment.check` (hankel.py lines 144-152) state effect:
always recomputes, but never assigns `self.valid` — the method returns
`expr.equals(0)` without storing it. -/
def incCheckUpdate (_checkResult valid : Option Bool) : Option Bool × Bool :=
  (valid, true)

/-- Atomic pieces of rendered LaTeX output. `disp` is the latex of the
display symbol (`sp.latex(self.matrix_symbol)`, the string `H`);
`idx e` renders a bare index expression inside the compact rows/columns
reference matrix; `elem e` renders one indexed element-symbol subscript
expression (`{h}_{e}`, the only token carrying the element symbol);
`det` is the literal `\det `; `matOpen`/`amp`/`rowSep`/`matClose` are the
pieces of `sp.latex` of a matrix; `plus` the literal ` + `;
`eqSign`/`neqSign` the connective; `txtOpen`/`txtClose` the wrapper that
`sp.latex` puts around a plain Python string argument (as in
`Conjecture_increment._format`, which latexes an already-formatted
string); `dmOpen`/`dmClose` the display-equation delimiter written by
`save`. -/
inductive Tok where
  | disp : Tok
  | idx : ℤ → Tok
  | elem : ℤ → Tok
  | det : Tok
  | matOpen : Tok
  | matClose : Tok
  | amp : Tok
  | rowSep : Tok
  | plus : Tok
  | eqSign : Tok
  | neqSign : Tok
  | txtOpen : Tok
  | txtClose : Tok
  | dmOpen : Tok
  | dmClose : Tok
deriving DecidableEq

/-- Python `sep.join(blocks)` at token level. -/
def joinSep (sep : List Tok) : List (List Tok) → List Tok
  | [] => []
  | [x] => x
  | x :: y :: xs => x ++ sep ++ joinSep sep (y :: xs)

/-- `sp.latex` of a matrix: bracketed rows joined by the row separator,
entries joined by alignment tabs. -/
def matrixToks (g : List (List Tok)) : List Tok :=
  Tok.matOpen ::
    (joinSep [Tok.rowSep] (g.map fun row => joinSep [Tok.amp] (row.map fun t => [t])) ++
      [Tok.matClose])

/-- `HankelMatrix.format_minor` (hankel.py lines 40-53).  Compact
(`short=True`): the display symbol followed by the latex of the 2-row
matrix `Matrix([rows, columns])` of bare index expressions.  Explicit
(`short=False`): `\det ` followed by the latex of the expanded
submatrix, whose `(i, j)` entry is the element-symbol subscript
expression for `rows[i] + columns[j]`. -/
def format_minor (rows columns : List ℤ) (short : Bool) : List Tok :=
  if short then
    Tok.disp :: matrixToks [rows.map Tok.idx, columns.map Tok.idx]
  else
    Tok.det :: matrixToks (rows.map fun r => columns.map fun c => Tok.elem (r + c))

/-- The truth-dependent connective: Python `r'=' if self.valid else
r'\neq'` — `None` and `False` are both falsy, so only a stored `True`
renders the positive connective. -/
def connTok (valid : Option Bool) : Tok :=
  if valid = some true then Tok.eqSign else Tok.neqSign

/-- `sp.latex` applied to a plain Python string (as
`Conjecture_increment._format` does to each already-formatted minor):
wraps the text, adding no element-symbol content. -/
def latexStr (l : List Tok) : List Tok :=
  Tok.txtOpen :: (l ++ [Tok.txtClose])

/-- `Conjecture_1plus2equals3._format` (hankel.py lines 111-118):
`'{} + {} {} {}'.format(tex1, tex2, tex_eq, tex3)`. -/
def fmtSumEq (valid : Option Bool) (m1 m2 m3 : List ℤ × List ℤ) (short : Bool) : List Tok :=
  format_minor m1.1 m1.2 short ++ [Tok.plus] ++ format_minor m2.1 m2.2 short ++
    [connTok valid] ++ format_minor m3.1 m3.2 short

/-- `Conjecture_increment._format` (hankel.py lines 154-160): the
row-incremented minor renderings joined by ` + `, the connective, then
the column-incremented minor renderings joined by ` + `. -/
def fmtInc (valid : Option Bool) (rm cm : List (List ℤ × List ℤ)) (short : Bool) : List Tok :=
  joinSep [Tok.plus] (rm.map fun m => latexStr (format_minor m.1 m.2 short)) ++
    [connTok valid] ++
    joinSep [Tok.plus] (cm.map fun m => latexStr (format_minor m.1 m.2 short))

/-- A `logger.log(conjecture_class, *args)` request: the variant tag and
the arguments handed to the constructor. -/
inductive Req where
  | sumEq : (List ℤ × List ℤ) → (List ℤ × List ℤ) → (List ℤ × List ℤ) → Req
  | inc : List ℤ → List ℤ → ℤ → Req
deriving DecidableEq

/-- A successfully constructed conjecture instance: the data `_format`
needs (for the increment variant, the eagerly derived minor
collections). -/
inductive ConjData where
  | sumEq : (List ℤ × List ℤ) → (List ℤ × List ℤ) → (List ℤ × List ℤ) → ConjData
  | inc : List (List ℤ × List ℤ) → List (List ℤ × List ℤ) → ConjData
deriving DecidableEq

/-- Constructor call `conjecture_class(self.matrix, *args)` inside
`ConjectureLogger.log`; only `Conjecture_increment.__init__` can raise. -/
def construct? : Req → Option ConjData
  | Req.sumEq m1 m2 m3 => some (ConjData.sumEq m1 m2 m3)
  | Req.inc rows columns δ => (incInit rows columns δ).map fun p => ConjData.inc p.1 p.2

/-- Whether `check()` on the constructed instance runs without raising.
Definedness of the minor computations does not depend on the
interpretation of the element symbol (only squareness of the selections
matters), so the canonical interpretation `ℤ`, `h = 0` decides it. -/
def checkDefined : ConjData → Bool
  | ConjData.sumEq m1 m2 m3 => (plusCheck? (R := ℤ) (fun _ => 0) m1 m2 m3).isSome
  | ConjData.inc rm cm => (incCheckRun? (R := ℤ) (fun _ => 0) rm cm).isSome

/-- Rendering of a constructed conjecture given the stored validity. -/
def fmtConj : ConjData → Option Bool → Bool → List Tok
  | ConjData.sumEq m1 m2 m3, valid, short => fmtSumEq valid m1 m2 m3 short
  | ConjData.inc rm cm, valid, short => fmtInc valid rm cm short

/-- `ConjectureLogger` (hankel.py lines 163-173): the two parallel
rendered-output sequences. -/
structure LogState where
  short_results : List (List Tok)
  long_results : List (List Tok)
deriving DecidableEq

/-- `ConjectureLogger.log` (hankel.py lines 175-184): construct, check,
then append the compact rendering to `short_results` and the explicit
rendering to `long_results`.  `oracle` abstracts the deterministic
tri-valued result of the symbolic engine for the constructed conjecture;
both renderings of one `log` call use the same resolved value.  A raise
anywhere in the call (construction or check) appends nothing. -/
def logStep (oracle : ConjData → Option Bool) (s : LogState) (q : Req) : Option LogState := do
  let cd ← construct? q
  if checkDefined cd then
    some ⟨s.short_results ++ [fmtConj cd (oracle cd) true],
          s.long_results ++ [fmtConj cd (oracle cd) false]⟩
  else none

/-- A sequence of `log` calls, stopping at the first raised exception. -/
def runLog (oracle : ConjData → Option Bool) : LogState → List Req → Option LogState
  | s, [] => some s
  | s, q :: qs => do
      let s' ← logStep oracle s q
      runLog oracle s' qs

/-- `ConjectureLogger.save` (hankel.py lines 186-193): one line per
logged entry from the selected sequence, each wrapped in the
display-equation delimiter. -/
def save (s : LogState) (short : Bool) : List (List Tok) :=
  (if short then s.short_results else s.long_results).map fun line =>
    Tok.dmOpen :: (line ++ [Tok.dmClose])

end Hankel

namespace Hankel

lemma minor?_eq_detH {R : Type} [CommRing R] (h : ℤ → R) (rows columns : List ℤ)
    (hcl : columns.length = rows.length) {n : ℕ} (hn : rows.length = n) :
    minor? h rows columns =
      some (detH h n (fun k => rows.getD k 0) (fun k => columns.getD k 0)) := by
  subst hn
  rw [minor?, dif_pos hcl]
  rfl

lemma minor?_none {R : Type} [CommRing R] (h : ℤ → R) (rows columns : List ℤ)
    (hcl : columns.length ≠ rows.length) : minor? h rows columns = none := by
  rw [minor?, dif_neg hcl]

lemma minor?_isSome {R : Type} [CommRing R] (h : ℤ → R) (rows columns : List ℤ)
    (hcl : rows.length = columns.length) : (minor? h rows columns).isSome := by
  rw [minor?_eq_detH h rows columns hcl.symm rfl]
  rfl

lemma omap_eq_some_map {α β : Type} (f : α → Option β) (g : α → β) (l : List α)
    (H : ∀ a ∈ l, f a = some (g a)) : omap f l = some (l.map g) := by
  induction l with
  | nil => rfl
  | cons a l ih =>
    rw [omap, H a (List.mem_cons_self a l), ih fun a ha => H a (List.mem_cons_of_mem _ ha)]
    rfl

lemma omap_eq_none {α β : Type} (f : α → Option β) (l : List α)
    (H : ∃ a ∈ l, f a = none) : omap f l = none := by
  induction l with
  | nil => simp at H
  | cons a l ih =>
    obtain ⟨b, hb, hfb⟩ := H
    rcases List.mem_cons.mp hb with rfl | hbl
    · rw [omap, hfb]; rfl
    · rw [omap]
      cases hfa : f a
      · rfl
      · rw [Option.bind_eq_bind, Option.some_bind, ih ⟨b, hbl, hfb⟩]
        rfl

lemma omap_map {α β γ : Type} (f : β → Option γ) (g : α → β) (l : List α) :
    omap f (l.map g) = omap (fun a => f (g a)) l := by
  induction l with
  | nil => rfl
  | cons a l ih => simp only [List.map_cons, omap, ih]

/-- Core Hankel increment identity: summing the minors in which the `i`-th
row index is shifted by `δ` (one position at a time) agrees with summing
the minors in which the `i`-th column index is shifted by `δ`.  Both
sides expand by the Leibniz formula to the same multiset of monomials,
because a Hankel entry depends only on the index sum. -/
lemma detH_increment_sum {R : Type} [CommRing R] (h : ℤ → R) (n : ℕ) (r c : ℕ → ℤ) (δ : ℤ) :
    ∑ i : Fin n, detH h n (Function.update r i.1 (r i.1 + δ)) c
      = ∑ i : Fin n, detH h n r (Function.update c i.1 (c i.1 + δ)) := by
  simp only [detH, Matrix.det_apply, Matrix.of_apply]
  rw [Finset.sum_comm]
  conv_rhs => rw [Finset.sum_comm]
  refine Finset.sum_congr rfl fun σ _ => ?_
  refine (Fintype.sum_equiv σ _ _ fun j => ?_).symm
  congr 1
  refine Finset.prod_congr rfl fun b _ => ?_
  rcases eq_or_ne b j with rfl | hb
  · rw [Function.update_same, Function.update_same]
    congr 1
    ring
  · have hbj : b.1 ≠ j.1 := fun hh => hb (Fin.ext hh)
    have hσ : (σ b).1 ≠ (σ j).1 := fun hh => hb (σ.injective (Fin.ext hh))
    rw [Function.update_noteq hbj, Function.update_noteq hσ]

lemma getD_set_update (l : List ℤ) (i : ℕ) (v : ℤ) (hi : i < l.length) :
    (fun k => (l.set i v).getD k 0) = Function.update (fun m => l.getD m 0) i v := by
  funext k
  rw [List.getD_eq_getElem?_getD, List.getElem?_set, Function.update_apply]
  rcases eq_or_ne k i with rfl | hik
  · simp [hi]
  · simp [hik, Ne.symm hik, List.getD_eq_getElem?_getD]

/-- Successful construction: when `len(columns) ≥ len(rows)` the
constructor yields the two collections of derived minor specifications,
one pair per position of `rows`. -/
lemma incInit_eq (rows columns : List ℤ) (δ : ℤ) (hle : rows.length ≤ columns.length) :
    incInit rows columns δ = some
      ((List.range rows.length).map fun i => (rows.set i (rows.getD i 0 + δ), columns),
       (List.range rows.length).map fun i => (rows, columns.set i (columns.getD i 0 + δ))) := by
  have H : ∀ i ∈ List.range rows.length, incPairs rows columns δ i =
      some ((rows.set i (rows.getD i 0 + δ), columns),
        (rows, columns.set i (columns.getD i 0 + δ))) := by
    intro i hi
    have hir : i < rows.length := List.mem_range.mp hi
    have hic : i < columns.length := lt_of_lt_of_le hir hle
    unfold incPairs
    rw [List.getElem?_eq_getElem hir, List.getElem?_eq_getElem hic]
    simp [List.getD_eq_getElem?_getD, List.getElem?_eq_getElem, hir, hic]
  rw [incInit, omap_eq_some_map _ _ _ H]
  simp [List.map_map, Function.comp_def]

lemma list_range_map_sum {M : Type} [AddCommMonoid M] (f : ℕ → M) (n : ℕ) :
    ((List.range n).map f).sum = ∑ i : Fin n, f i.1 := by
  induction n with
  | zero => simp
  | succ n ih =>
    rw [List.range_succ]
    simp [ih, Fin.sum_univ_castSucc]

/-- C1 assembly lemma: the full `check()` value of an increment
conjecture over equal-length nonempty index lists. -/
lemma incCheck?_eq {R : Type} [CommRing R] (h : ℤ → R) (rows columns : List ℤ) (δ : ℤ)
    (hlen : rows.length = columns.length) (hne : rows ≠ []) :
    incCheck? h rows columns δ = some
      ((∑ i : Fin rows.length,
          detH h rows.length
            (Function.update (fun k => rows.getD k 0) i.1 (rows.getD i.1 0 + δ))
            (fun k => columns.getD k 0)) -
       (∑ i : Fin rows.length,
          detH h rows.length (fun k => rows.getD k 0)
            (Function.update (fun k => columns.getD k 0) i.1 (columns.getD i.1 0 + δ)))) := by
  have hle : rows.length ≤ columns.length := le_of_eq hlen
  rw [incCheck?, incInit_eq rows columns δ hle]
  have hrm : sumMinors? h ((List.range rows.length).map fun i =>
      (rows.set i (rows.getD i 0 + δ), columns)) = some
      (∑ i : Fin rows.length,
        detH h rows.length
          (Function.update (fun k => rows.getD k 0) i.1 (rows.getD i.1 0 + δ))
          (fun k => columns.getD k 0)) := by
    rw [sumMinors?, omap_map, omap_eq_some_map _
      (fun i => detH h rows.length
        (Function.update (fun k => rows.getD k 0) i (rows.getD i 0 + δ))
        (fun k => columns.getD k 0)) _ ?_]
    · rw [Option.map_some']
      congr 1
      exact list_range_map_sum _ _
    · intro i hi
      have hir : i < rows.length := List.mem_range.mp hi
      have hcl : columns.length = (rows.set i (rows.getD i 0 + δ)).length := by
        simp [hlen]
      have hn : (rows.set i (rows.getD i 0 + δ)).length = rows.length := by simp
      rw [minor?_eq_detH h _ _ hcl hn, getD_set_update rows i _ hir]
  have hcm : sumMinors? h ((List.range rows.length).map fun i =>
      (rows, columns.set i (columns.getD i 0 + δ))) = some
      (∑ i : Fin rows.length,
        detH h rows.length (fun k => rows.getD k 0)
          (Function.update (fun k => columns.getD k 0) i.1 (columns.getD i.1 0 + δ))) := by
    rw [sumMinors?, omap_map, omap_eq_some_map _
      (fun i => detH h rows.length (fun k => rows.getD k 0)
        (Function.update (fun k => columns.getD k 0) i (columns.getD i 0 + δ))) _ ?_]
    · rw [Option.map_some']
      congr 1
      exact list_range_map_sum _ _
    · intro i hi
      have hir : i < rows.length := List.mem_range.mp hi
      have hic : i < columns.length := hlen ▸ hir
      have hcl : (columns.set i (columns.getD i 0 + δ)).length = rows.length := by
        simp [hlen]
      rw [minor?_eq_detH h _ _ hcl rfl, getD_set_update columns i _ hic]
  have hempty : ((List.range rows.length).map fun i =>
      (rows.set i (rows.getD i 0 + δ), columns)).isEmpty = false := by
    cases hrows : List.range rows.length with
    | nil =>
      exfalso
      have h0 := congrArg List.length hrows
      simp only [List.length_range, List.length_nil] at h0
      exact hne (List.length_eq_zero.mp h0)
    | cons a t => rfl
  rw [Option.bind_eq_bind, Option.some_bind]
  simp only [incCheckRun?, hrm, hcm, Option.bind_eq_bind, Option.some_bind]
  simp [hempty, hne]

lemma incInit_none_of_short (rows columns : List ℤ) (δ : ℤ)
    (hlt : columns.length < rows.length) : incInit rows columns δ = none := by
  have hmem : columns.length ∈ List.range rows.length := List.mem_range.mpr hlt
  have hpair : incPairs rows columns δ columns.length = none := by
    have hcn : columns[columns.length]? = none := List.getElem?_eq_none (le_refl _)
    unfold incPairs
    rw [hcn]
    cases rows[columns.length]? <;> rfl
  rw [incInit, omap_eq_none _ _ ⟨columns.length, hmem, hpair⟩]
  rfl

/-- Expansion of a 3×3 Hankel determinant. -/
lemma detH_three {R : Type} [CommRing R] (h : ℤ → R) (r c : ℕ → ℤ) :
    detH h 3 r c =
      h (r 0 + c 0) * h (r 1 + c 1) * h (r 2 + c 2)
        - h (r 0 + c 0) * h (r 1 + c 2) * h (r 2 + c 1)
        - h (r 0 + c 1) * h (r 1 + c 0) * h (r 2 + c 2)
        + h (r 0 + c 1) * h (r 1 + c 2) * h (r 2 + c 0)
        + h (r 0 + c 2) * h (r 1 + c 0) * h (r 2 + c 1)
        - h (r 0 + c 2) * h (r 1 + c 1) * h (r 2 + c 0) := by
  refine Eq.trans (Matrix.det_fin_three _) ?_
  rfl

/-- `minor` of an explicit 3×3 selection, fully expanded. -/
lemma minor?_three {R : Type} [CommRing R] (h : ℤ → R) (a₁ a₂ a₃ b₁ b₂ b₃ : ℤ) :
    minor? h [a₁, a₂, a₃] [b₁, b₂, b₃] = some (
      h (a₁ + b₁) * h (a₂ + b₂) * h (a₃ + b₃)
        - h (a₁ + b₁) * h (a₂ + b₃) * h (a₃ + b₂)
        - h (a₁ + b₂) * h (a₂ + b₁) * h (a₃ + b₃)
        + h (a₁ + b₂) * h (a₂ + b₃) * h (a₃ + b₁)
        + h (a₁ + b₃) * h (a₂ + b₁) * h (a₃ + b₂)
        - h (a₁ + b₃) * h (a₂ + b₂) * h (a₃ + b₁)) := by
  rw [minor?_eq_detH h [a₁, a₂, a₃] [b₁, b₂, b₃] rfl (n := 3) rfl]
  exact congrArg some (detH_three h _ _)

lemma joinSep_cons_cons (sep x y : List Tok) (xs : List (List Tok)) :
    joinSep sep (x :: y :: xs) = x ++ sep ++ joinSep sep (y :: xs) := rfl

lemma mem_joinSep {sep : List Tok} {l : List (List Tok)} {t : Tok}
    (ht : t ∈ joinSep sep l) : t ∈ sep ∨ ∃ b ∈ l, t ∈ b := by
  induction l with
  | nil => simp [joinSep] at ht
  | cons x xs ih =>
    cases xs with
    | nil =>
      exact Or.inr ⟨x, List.mem_cons_self _ _, ht⟩
    | cons y ys =>
      rw [joinSep_cons_cons] at ht
      rcases List.mem_append.mp ht with h1 | h2
      · rcases List.mem_append.mp h1 with hx | hs
        · exact Or.inr ⟨x, List.mem_cons_self _ _, hx⟩
        · exact Or.inl hs
      · rcases ih h2 with hs | ⟨b, hb, htb⟩
        · exact Or.inl hs
        · exact Or.inr ⟨b, List.mem_cons_of_mem _ hb, htb⟩

lemma joinSep_contains {sep : List Tok} {l : List (List Tok)} {b : List Tok}
    (hb : b ∈ l) : b <:+: joinSep sep l := by
  induction l with
  | nil => simp at hb
  | cons x xs ih =>
    cases xs with
    | nil =>
      rcases List.mem_cons.mp hb with rfl | h
      · exact List.infix_refl b
      · simp at h
    | cons y ys =>
      rw [joinSep_cons_cons, List.append_assoc]
      rcases List.mem_cons.mp hb with rfl | h
      · exact ⟨[], sep ++ joinSep sep (y :: ys), by simp⟩
      · exact (ih h).trans ⟨x ++ sep, [], by simp⟩

lemma mem_matrixToks {t : Tok} {g : List (List Tok)} (ht : t ∈ matrixToks g) :
    t = Tok.matOpen ∨ t = Tok.matClose ∨ t = Tok.rowSep ∨ t = Tok.amp ∨
      ∃ row ∈ g, t ∈ row := by
  unfold matrixToks at ht
  rcases List.mem_cons.mp ht with rfl | ht
  · exact Or.inl rfl
  rcases List.mem_append.mp ht with hj | hc
  · rcases mem_joinSep hj with hs | ⟨b, hb, htb⟩
    · simp only [List.mem_singleton] at hs
      exact Or.inr (Or.inr (Or.inl hs))
    · obtain ⟨row, hrow, rfl⟩ := List.mem_map.mp hb
      rcases mem_joinSep htb with hs | ⟨c, hc', htc⟩
      · simp only [List.mem_singleton] at hs
        exact Or.inr (Or.inr (Or.inr (Or.inl hs)))
      · obtain ⟨u, hu, rfl⟩ := List.mem_map.mp hc'
        simp only [List.mem_singleton] at htc
        subst htc
        exact Or.inr (Or.inr (Or.inr (Or.inr ⟨row, hrow, hu⟩)))
  · simp only [List.mem_singleton] at hc
    exact Or.inr (Or.inl hc)

/-- The compact rendering of a minor carries no element-symbol token. -/
lemma elem_not_mem_format_minor_short (rows columns : List ℤ) (e : ℤ) :
    Tok.elem e ∉ format_minor rows columns true := by
  intro hmem
  rw [format_minor, if_pos rfl] at hmem
  rcases List.mem_cons.mp hmem with hd | hm
  · exact Tok.noConfusion hd
  rcases mem_matrixToks hm with h1 | h1 | h1 | h1 | ⟨row, hrow, hexy⟩
  any_goals exact Tok.noConfusion h1
  have : ∀ z ∈ ([rows.map Tok.idx, columns.map Tok.idx] : List (List Tok)),
      ∀ u ∈ z, u ≠ Tok.elem e := by
    intro z hz u hu
    rcases List.mem_cons.mp hz with rfl | hz
    · obtain ⟨w, _, rfl⟩ := List.mem_map.mp hu
      exact fun hc => Tok.noConfusion hc
    rcases List.mem_cons.mp hz with rfl | hz
    · obtain ⟨w, _, rfl⟩ := List.mem_map.mp hu
      exact fun hc => Tok.noConfusion hc
    · simp at hz
  exact this row hrow _ hexy rfl

/-- The compact rendering of a whole sum-equality conjecture carries no
element-symbol token. -/
lemma elem_not_mem_fmtSumEq (valid : Option Bool) (m1 m2 m3 : List ℤ × List ℤ) (e : ℤ) :
    Tok.elem e ∉ fmtSumEq valid m1 m2 m3 true := by
  intro hmem
  rw [fmtSumEq] at hmem
  rcases List.mem_append.mp hmem with h | h
  rotate_left
  · exact elem_not_mem_format_minor_short _ _ e h
  rcases List.mem_append.mp h with h | h
  rotate_left
  · rw [List.mem_singleton, connTok] at h
    rcases ite_eq_iff.mp h.symm with ⟨_, hc⟩ | ⟨_, hc⟩ <;> exact Tok.noConfusion hc
  rcases List.mem_append.mp h with h | h
  rotate_left
  · exact elem_not_mem_format_minor_short _ _ e h
  rcases List.mem_append.mp h with h | h
  · exact elem_not_mem_format_minor_short _ _ e h
  · rw [List.mem_singleton] at h
    exact Tok.noConfusion h

/-- The compact rendering of a whole increment conjecture carries no
element-symbol token. -/
lemma elem_not_mem_fmtInc (valid : Option Bool) (rm cm : List (List ℤ × List ℤ)) (e : ℤ) :
    Tok.elem e ∉ fmtInc valid rm cm true := by
  have side : ∀ ms : List (List ℤ × List ℤ),
      Tok.elem e ∉ joinSep [Tok.plus]
        (ms.map fun m => latexStr (format_minor m.1 m.2 true)) := by
    intro ms hmem
    rcases mem_joinSep hmem with hs | ⟨b, hb, htb⟩
    · rw [List.mem_singleton] at hs
      exact Tok.noConfusion hs
    · obtain ⟨m, _, rfl⟩ := List.mem_map.mp hb
      rw [latexStr] at htb
      rcases List.mem_cons.mp htb with hc | htb
      · exact Tok.noConfusion hc
      rcases List.mem_append.mp htb with htb | hc
      · exact elem_not_mem_format_minor_short _ _ e htb
      · rw [List.mem_singleton] at hc
        exact Tok.noConfusion hc
  intro hmem
  rw [fmtInc] at hmem
  rcases List.mem_append.mp hmem with h | h
  rotate_left
  · exact side cm h
  rcases List.mem_append.mp h with h | h
  · exact side rm h
  · rw [List.mem_singleton, connTok] at h
    rcases ite_eq_iff.mp h.symm with ⟨_, hc⟩ | ⟨_, hc⟩ <;> exact Tok.noConfusion hc

/-- The explicit rendering of a minor is the determinant token wrapping
the fully expanded grid of element-symbol entries. -/
lemma format_minor_long_eq (rows columns : List ℤ) :
    format_minor rows columns false =
      Tok.det :: matrixToks (rows.map fun r => columns.map fun c => Tok.elem (r + c)) := rfl

lemma latexStr_contains (l : List Tok) : l <:+: latexStr l :=
  ⟨[Tok.txtOpen], [Tok.txtClose], by simp [latexStr]⟩

/-- Each of the three explicit minor renderings occurs inside the
explicit rendering of a sum-equality conjecture. -/
lemma fmtSumEq_contains (valid : Option Bool) (m1 m2 m3 : List ℤ × List ℤ) (short : Bool) :
    format_minor m1.1 m1.2 short <:+: fmtSumEq valid m1 m2 m3 short ∧
    format_minor m2.1 m2.2 short <:+: fmtSumEq valid m1 m2 m3 short ∧
    format_minor m3.1 m3.2 short <:+: fmtSumEq valid m1 m2 m3 short := by
  refine ⟨⟨[], ?_, ?_⟩, ⟨format_minor m1.1 m1.2 short ++ [Tok.plus], ?_, ?_⟩,
    ⟨format_minor m1.1 m1.2 short ++ [Tok.plus] ++ format_minor m2.1 m2.2 short ++
      [connTok valid], [], ?_⟩⟩
  · exact [Tok.plus] ++ format_minor m2.1 m2.2 short ++ [connTok valid] ++
      format_minor m3.1 m3.2 short
  · simp [fmtSumEq]
  · exact [connTok valid] ++ format_minor m3.1 m3.2 short
  · simp [fmtSumEq]
  · simp [fmtSumEq]

/-- Each explicit minor rendering of either side occurs inside the
explicit rendering of an increment conjecture. -/
lemma fmtInc_contains (valid : Option Bool) (rm cm : List (List ℤ × List ℤ))
    (short : Bool) (m : List ℤ × List ℤ) (hm : m ∈ rm ∨ m ∈ cm) :
    format_minor m.1 m.2 short <:+: fmtInc valid rm cm short := by
  have hwrap : format_minor m.1 m.2 short <:+:
      latexStr (format_minor m.1 m.2 short) := latexStr_contains _
  rcases hm with hm | hm
  · have hjoin : latexStr (format_minor m.1 m.2 short) <:+:
        joinSep [Tok.plus] (rm.map fun p => latexStr (format_minor p.1 p.2 short)) :=
      joinSep_contains (List.mem_map.mpr ⟨m, hm, rfl⟩)
    refine (hwrap.trans hjoin).trans ⟨[], [connTok valid] ++
      joinSep [Tok.plus] (cm.map fun p => latexStr (format_minor p.1 p.2 short)), ?_⟩
    simp [fmtInc]
  · have hjoin : latexStr (format_minor m.1 m.2 short) <:+:
        joinSep [Tok.plus] (cm.map fun p => latexStr (format_minor p.1 p.2 short)) :=
      joinSep_contains (List.mem_map.mpr ⟨m, hm, rfl⟩)
    refine (hwrap.trans hjoin).trans ⟨joinSep [Tok.plus]
      (rm.map fun p => latexStr (format_minor p.1 p.2 short)) ++ [connTok valid], [], ?_⟩
    simp [fmtInc]

/-- Unfolding of one successful `log` call. -/
lemma logStep_eq_some {oracle : ConjData → Option Bool} {s s1 : LogState} {q : Req}
    (hstep : logStep oracle s q = some s1) :
    ∃ cd, construct? q = some cd ∧ checkDefined cd = true ∧
      s1 = ⟨s.short_results ++ [fmtConj cd (oracle cd) true],
            s.long_results ++ [fmtConj cd (oracle cd) false]⟩ := by
  unfold logStep at hstep
  cases hcq : construct? q with
  | none => rw [hcq] at hstep; exact Option.noConfusion hstep
  | some cd =>
    rw [hcq, Option.bind_eq_bind, Option.some_bind] at hstep
    by_cases hcd : checkDefined cd
    · rw [if_pos hcd] at hstep
      exact ⟨cd, rfl, hcd, (Option.some_inj.mp hstep).symm⟩
    · rw [if_neg hcd] at hstep
      exact Option.noConfusion hstep

/-- Accumulation shape of a fully successful `log` sequence: there is one
constructed conjecture per request, and the two result sequences are its
compact and explicit renderings in request order, appended to the
starting state. -/
lemma runLog_eq (oracle : ConjData → Option Bool) (qs : List Req) :
    ∀ s s' : LogState, runLog oracle s qs = some s' →
      ∃ cds : List ConjData,
        cds.length = qs.length ∧
        s'.short_results = s.short_results ++
          cds.map (fun cd => fmtConj cd (oracle cd) true) ∧
        s'.long_results = s.long_results ++
          cds.map (fun cd => fmtConj cd (oracle cd) false) := by
  induction qs with
  | nil =>
    intro s s' hrun
    rw [runLog] at hrun
    obtain rfl := Option.some_inj.mp hrun
    exact ⟨[], rfl, by simp, by simp⟩
  | cons q qs ih =>
    intro s s' hrun
    rw [runLog] at hrun
    cases hstep : logStep oracle s q with
    | none => rw [hstep] at hrun; exact Option.noConfusion hrun
    | some s1 =>
      rw [hstep, Option.bind_eq_bind, Option.some_bind] at hrun
      obtain ⟨cds, hlen, hs, hl⟩ := ih s1 s' hrun
      obtain ⟨cd, _, _, rfl⟩ := logStep_eq_some hstep
      refine ⟨cd :: cds, by simp [hlen], ?_, ?_⟩
      · rw [hs]
        simp
      · rw [hl]
        simp

/-- The exact-zero disjunct of the zero-minor check, in existential
form. -/
lemma zeroCheck1?_eq_some_iff {R : Type} [CommRing R] (h : ℤ → R)
    (z m1 m2 : List ℤ × List ℤ) :
    zeroCheck1? h z m1 m2 = some 0 ↔
      ∃ d0 d1 d2, minor? h z.1 z.2 = some d0 ∧ minor? h m1.1 m1.2 = some d1 ∧
        minor? h m2.1 m2.2 = some d2 ∧ d0 - d1 + d2 = 0 := by
  unfold zeroCheck1?
  cases h0 : minor? h z.1 z.2 <;> cases h1 : minor? h m1.1 m1.2 <;>
    cases h2 : minor? h m2.1 m2.2 <;> simp

lemma zeroCheck2?_eq_some_iff {R : Type} [CommRing R] (h : ℤ → R)
    (z m1 m2 : List ℤ × List ℤ) :
    zeroCheck2? h z m1 m2 = some 0 ↔
      ∃ d0 d1 d2, minor? h z.1 z.2 = some d0 ∧ minor? h m1.1 m1.2 = some d1 ∧
        minor? h m2.1 m2.2 = some d2 ∧ d0 + d1 - d2 = 0 := by
  unfold zeroCheck2?
  cases h0 : minor? h z.1 z.2 <;> cases h1 : minor? h m1.1 m1.2 <;>
    cases h2 : minor? h m2.1 m2.2 <;> simp

/-- A submatrix entry is the element symbol at the sum of the selected
row and column index expressions. -/
lemma submatrix_apply {R : Type} [CommRing R] (h : ℤ → R) (rows columns : List ℤ)
    (i : Fin rows.length) (j : Fin columns.length) :
    submatrix h rows columns i j = h (rows.get i + columns.get j) := by
  unfold submatrix
  rw [Matrix.of_apply]
  congr 1
  rw [List.getD_eq_getElem?_getD, List.getElem?_eq_getElem i.2,
    List.getD_eq_getElem?_getD, List.getElem?_eq_getElem j.2]
  simp [List.get_eq_getElem]

/-- C1 counterexample: the claim quantifies over every base minor
specification with equal lengths, but at the empty specification
`(rows, columns) = ([], [])` with `delta = 0` the `check()` call raises
(`expr` is the plain Python `int` `0`, which has no `equals` method)
instead of returning `Valid` — the run is `none`, not `some 0`. -/
theorem C1_counterexample :
    incCheck? (R := ℤ) (fun _ => 0) [] [] 0 = none ∧ (none : Option ℤ) ≠ some 0 :=
  ⟨rfl, by decide⟩

/-- C1 (amended: the base minor specification must be nonempty): for
every base specification with equal positive lengths and every delta,
the increment-invariance `check()` returns `Valid` — the sum of the
row-incremented minors is identically equal to the sum of the
column-incremented minors, for every interpretation of the element
symbol in every commutative ring. -/
theorem C1_increment_valid (rows columns : List ℤ) (δ : ℤ)
    (hlen : rows.length = columns.length) (hne : rows ≠ []) :
    incValid rows columns δ := by
  intro R _ h
  rw [incCheck?_eq h rows columns δ hlen hne]
  exact congrArg some (sub_eq_zero_of_eq (detH_increment_sum h rows.length _ _ δ))

/-- C1 witness: the amended theorem applied at a concrete nonempty
specification. -/
theorem C1_increment_valid_witness :
    ([0, 1] : List ℤ).length = ([2, 3] : List ℤ).length ∧ ([0, 1] : List ℤ) ≠ [] ∧
      incValid [0, 1] [2, 3] 5 :=
  ⟨rfl, by decide, C1_increment_valid [0, 1] [2, 3] 5 rfl (by decide)⟩

/-- C2 counterexample: on a fresh increment conjecture (cache `none`,
i.e. Unknown) whose symbolic engine resolves to `True`, a `check()` call
leaves the cache at `none` — the claimed Unknown → resolved transition
does not fire on the first `check()` call; and on an already resolved
sum-equality conjecture a later direct `check()` call performs the
verification computation again (second component `true`), contradicting
"no later check() ... recomputes". -/
theorem C2_counterexample :
    incCheckUpdate (some true) none = (none, true) ∧
    sumEqCheckUpdate (some true) (some true) = (some true, true) :=
  ⟨rfl, rfl⟩

/-- C2 (amended): the memoization lives in `format`, not `check`: once
the cache holds a resolved boolean, any later `format()` call (either
rendering mode) neither recomputes nor changes it; the first `format()`
call on an unresolved conjecture performs the single check computation
and stores its result; an indeterminate check result leaves the cache
Unknown (so `format` recomputes on each call); a direct `check()` call
always recomputes, `Conjecture_increment.check` never writes the cache,
and `Conjecture_1plus2equals3.check` always overwrites it. -/
theorem C2_cache_terminal :
    (∀ (r : Option Bool) (b : Bool), formatValidUpdate r (some b) = (some b, false)) ∧
    (∀ b : Bool, formatValidUpdate (some b) none = (some b, true)) ∧
    formatValidUpdate none none = (none, true) ∧
    (∀ r v : Option Bool, (incCheckUpdate r v).1 = v) ∧
    (∀ r v : Option Bool, sumEqCheckUpdate r v = (r, true)) := by
  refine ⟨fun r b => ?_, fun b => rfl, rfl, fun r v => rfl, fun r v => rfl⟩
  rw [formatValidUpdate, if_neg]
  simp

/-- C3 counterexample: at the mismatched specification
`rows = [0]`, `columns = [1, 2]` the spec-shaped `submatrix` (which the
claim says fails with DimensionMismatch) returns `none`, while the
source's `submatrix` succeeds and returns the 1×2 matrix of entries
`h 1`, `h 2`; only `minor` fails. -/
theorem C3_counterexample :
    submatrixSpec? (R := ℤ) (fun n => n) [0] [1, 2] = none ∧
    submatrix (R := ℤ) (fun n => n) [0] [1, 2] ⟨0, by decide⟩ ⟨0, by decide⟩ = 1 ∧
    submatrix (R := ℤ) (fun n => n) [0] [1, 2] ⟨0, by decide⟩ ⟨1, by decide⟩ = 2 ∧
    minor? (R := ℤ) (fun n => n) [0] [1, 2] = none := by
  refine ⟨rfl, by decide, by decide, rfl⟩

/-- C3 (amended): with equal lengths `minor` returns a determinant
value; with mismatched lengths `minor` fails (sympy's
NonSquareMatrixError raised inside `det`) while `submatrix` succeeds,
returning the rectangular matrix; and a `log` call whose `check()`
raises appends no entry to either result sequence. -/
theorem C3_minor_dimension :
    (∀ (R : Type) [CommRing R] (h : ℤ → R) (rows columns : List ℤ),
      rows.length = columns.length → (minor? h rows columns).isSome = true) ∧
    (∀ (R : Type) [CommRing R] (h : ℤ → R) (rows columns : List ℤ),
      rows.length ≠ columns.length → minor? h rows columns = none) ∧
    (∀ (oracle : ConjData → Option Bool) (s : LogState) (q : Req) (cd : ConjData),
      construct? q = some cd → checkDefined cd = false → logStep oracle s q = none) := by
  refine ⟨?_, ?_, ?_⟩
  · intro R _ h rows columns hlen
    exact minor?_isSome h rows columns hlen
  · intro R _ h rows columns hne
    exact minor?_none h rows columns (Ne.symm hne)
  · intro oracle s q cd hcq hcd
    simp [logStep, hcq, hcd]

/-- C3 witness: the amended theorem applied at concrete inputs. -/
theorem C3_minor_dimension_witness :
    (minor? (R := ℤ) (fun _ => 0) [0] [5]).isSome = true ∧
    minor? (R := ℤ) (fun _ => 0) [0] [] = none ∧
    logStep (fun _ => some true) ⟨[], []⟩ (Req.sumEq ([0], []) ([], []) ([], [])) = none :=
  ⟨C3_minor_dimension.1 ℤ (fun _ => 0) [0] [5] rfl,
   C3_minor_dimension.2.1 ℤ (fun _ => 0) [0] [] (by decide),
   C3_minor_dimension.2.2 (fun _ => some true) ⟨[], []⟩ _
     (ConjData.sumEq ([0], []) ([], []) ([], [])) rfl (by decide)⟩

/-- C4: the zero-minor biconditional variant (modelled from the spec,
absent from src/) is `Valid` iff `minor(zero_minor) − minor(minor1) +
minor(minor2)` is identically zero or `minor(zero_minor) +
minor(minor1) − minor(minor2)` is identically zero — spelled out in
terms of the three minor values. -/
theorem C4_zero_minor_biconditional (z m1 m2 : List ℤ × List ℤ) :
    zeroValid z m1 m2 ↔
      ((∀ (R : Type) [CommRing R] (h : ℤ → R), ∃ d0 d1 d2,
          minor? h z.1 z.2 = some d0 ∧ minor? h m1.1 m1.2 = some d1 ∧
          minor? h m2.1 m2.2 = some d2 ∧ d0 - d1 + d2 = 0) ∨
       (∀ (R : Type) [CommRing R] (h : ℤ → R), ∃ d0 d1 d2,
          minor? h z.1 z.2 = some d0 ∧ minor? h m1.1 m1.2 = some d1 ∧
          minor? h m2.1 m2.2 = some d2 ∧ d0 + d1 - d2 = 0)) := by
  unfold zeroValid
  constructor
  · rintro (H | H)
    · exact Or.inl fun R _ h => (zeroCheck1?_eq_some_iff h z m1 m2).mp (H R h)
    · exact Or.inr fun R _ h => (zeroCheck2?_eq_some_iff h z m1 m2).mp (H R h)
  · rintro (H | H)
    · exact Or.inl fun R _ h => (zeroCheck1?_eq_some_iff h z m1 m2).mpr (H R h)
    · exact Or.inr fun R _ h => (zeroCheck2?_eq_some_iff h z m1 m2).mpr (H R h)

/-- C5: a submatrix entry at `(i, j)` is the element symbol at
`rows[i] + columns[j]` — with no length, distinctness or sortedness
requirement — and the entry value depends only on the sum of the two
index expressions. -/
theorem C5_submatrix_entries :
    (∀ (R : Type) [CommRing R] (h : ℤ → R) (rows columns : List ℤ)
        (i : Fin rows.length) (j : Fin columns.length),
      submatrix h rows columns i j = h (rows.get i + columns.get j)) ∧
    (∀ (R : Type) [CommRing R] (h : ℤ → R) (rows columns rows' columns' : List ℤ)
        (i : Fin rows.length) (j : Fin columns.length)
        (i' : Fin rows'.length) (j' : Fin columns'.length),
      rows.get i + columns.get j = rows'.get i' + columns'.get j' →
      submatrix h rows columns i j = submatrix h rows' columns' i' j') := by
  refine ⟨fun R _ h rows columns i j => submatrix_apply h rows columns i j,
    fun R _ h rows columns rows' columns' i j i' j' hsum => ?_⟩
  rw [submatrix_apply, submatrix_apply, hsum]

/-- C5 witness: sum-dependence at concrete positions, `2 + 3 = 5 + 0`. -/
theorem C5_submatrix_entries_witness :
    submatrix (R := ℤ) (fun n => n) [1, 2] [3] ⟨1, by decide⟩ ⟨0, by decide⟩ =
      (fun n => (n : ℤ)) (([1, 2] : List ℤ).get ⟨1, by decide⟩ +
        ([3] : List ℤ).get ⟨0, by decide⟩) ∧
    submatrix (R := ℤ) (fun n => n) [1, 2] [3] ⟨1, by decide⟩ ⟨0, by decide⟩ =
      submatrix (R := ℤ) (fun n => n) [5] [0] ⟨0, by decide⟩ ⟨0, by decide⟩ :=
  ⟨C5_submatrix_entries.1 ℤ (fun n => n) [1, 2] [3] _ _,
   C5_submatrix_entries.2 ℤ (fun n => n) [1, 2] [3] [5] [0] _ _ _ _ (by decide)⟩

/-- C6: the concrete sum-equality conjecture with
`minor1 = ([0,1,2],[0,2,3])`, `minor2 = ([0,1,4],[0,1,2])`,
`minor3 = ([0,1,3],[0,1,3])` checks `Valid` (the difference expression
is identically zero), and the deliberately mismatched triple obtained by
swapping the third row index between `minor2` and `minor3` checks
`Invalid` (the difference is not identically zero: it evaluates to 96 at
the interpretation `h n = n²` over `ℤ`). -/
theorem C6_concrete_sum_equality :
    plusValid ([0, 1, 2], [0, 2, 3]) ([0, 1, 4], [0, 1, 2]) ([0, 1, 3], [0, 1, 3]) ∧
    ¬ plusValid ([0, 1, 2], [0, 2, 3]) ([0, 1, 3], [0, 1, 2]) ([0, 1, 4], [0, 1, 3]) := by
  constructor
  · intro R _ h
    simp only [plusCheck?, minor?_three, Option.bind_eq_bind, Option.some_bind]
    refine congrArg some ?_
    norm_num
    ring
  · intro H
    have hc := H ℤ (fun n => n * n)
    simp only [plusCheck?, minor?_three, Option.bind_eq_bind, Option.some_bind,
      Option.some.injEq] at hc
    norm_num at hc

/-- C7: when the exact-zero test is indeterminate (sympy `equals`
returns `None`), the stored validity is falsy, so `format` renders the
conjecture with the negative connective in both variants and both
rendering modes, and the rendering is a total function of the data (no
exception). -/
theorem C7_indeterminate_negative :
    connTok none = Tok.neqSign ∧
    (∀ (m1 m2 m3 : List ℤ × List ℤ) (short : Bool),
      fmtSumEq none m1 m2 m3 short =
        format_minor m1.1 m1.2 short ++ [Tok.plus] ++ format_minor m2.1 m2.2 short ++
          [Tok.neqSign] ++ format_minor m3.1 m3.2 short) ∧
    (∀ (rm cm : List (List ℤ × List ℤ)) (short : Bool),
      fmtInc none rm cm short =
        joinSep [Tok.plus] (rm.map fun m => latexStr (format_minor m.1 m.2 short)) ++
          [Tok.neqSign] ++
          joinSep [Tok.plus] (cm.map fun m => latexStr (format_minor m.1 m.2 short))) :=
  ⟨rfl, fun _ _ _ _ => rfl, fun _ _ _ => rfl⟩

/-- C8: compact renderings of both variants never contain an
element-symbol subscript token; explicit minor renderings are the
determinant token wrapping the fully expanded grid of element-symbol
entries, and each occurs inside the explicit rendering of the whole
conjecture. -/
theorem C8_render_modes :
    (∀ (valid : Option Bool) (m1 m2 m3 : List ℤ × List ℤ) (e : ℤ),
      Tok.elem e ∉ fmtSumEq valid m1 m2 m3 true) ∧
    (∀ (valid : Option Bool) (rm cm : List (List ℤ × List ℤ)) (e : ℤ),
      Tok.elem e ∉ fmtInc valid rm cm true) ∧
    (∀ rows columns : List ℤ, format_minor rows columns false =
      Tok.det :: matrixToks (rows.map fun r => columns.map fun c => Tok.elem (r + c))) ∧
    (∀ (valid : Option Bool) (m1 m2 m3 : List ℤ × List ℤ),
      format_minor m1.1 m1.2 false <:+: fmtSumEq valid m1 m2 m3 false ∧
      format_minor m2.1 m2.2 false <:+: fmtSumEq valid m1 m2 m3 false ∧
      format_minor m3.1 m3.2 false <:+: fmtSumEq valid m1 m2 m3 false) ∧
    (∀ (valid : Option Bool) (rm cm : List (List ℤ × List ℤ)) (m : List ℤ × List ℤ),
      m ∈ rm ∨ m ∈ cm → format_minor m.1 m.2 false <:+: fmtInc valid rm cm false) :=
  ⟨fun v m1 m2 m3 e => elem_not_mem_fmtSumEq v m1 m2 m3 e,
   fun v rm cm e => elem_not_mem_fmtInc v rm cm e,
   fun rows columns => format_minor_long_eq rows columns,
   fun v m1 m2 m3 => fmtSumEq_contains v m1 m2 m3 false,
   fun v rm cm m hm => fmtInc_contains v rm cm false m hm⟩

/-- C8 witness: the membership hypothesis discharged at a concrete
increment conjecture. -/
theorem C8_render_modes_witness :
    ((([0], [1]) : List ℤ × List ℤ) ∈ [(([0], [1]) : List ℤ × List ℤ)] ∨
      (([0], [1]) : List ℤ × List ℤ) ∈ ([] : List (List ℤ × List ℤ))) ∧
    format_minor [0] [1] false <:+: fmtInc (some true) [([0], [1])] [] false :=
  ⟨Or.inl (List.mem_singleton.mpr rfl),
   C8_render_modes.2.2.2.2 (some true) [([0], [1])] [] ([0], [1])
     (Or.inl (List.mem_singleton.mpr rfl))⟩

/-- C9: after any fully successful sequence of `log` calls starting from
an empty logger, there is one constructed conjecture per call; the
compact and explicit sequences are its compact and explicit renderings
in call order (hence equal lengths, equal to the number of calls, and
index-aligned on the same conjecture), and `save` in either mode emits
exactly one delimiter-wrapped line per logged entry. -/
theorem C9_log_alignment (oracle : ConjData → Option Bool) (qs : List Req) (s' : LogState)
    (hrun : runLog oracle ⟨[], []⟩ qs = some s') :
    ∃ cds : List ConjData,
      cds.length = qs.length ∧
      s'.short_results = cds.map (fun cd => fmtConj cd (oracle cd) true) ∧
      s'.long_results = cds.map (fun cd => fmtConj cd (oracle cd) false) ∧
      s'.short_results.length = qs.length ∧
      s'.long_results.length = qs.length ∧
      save s' true = s'.short_results.map (fun line => Tok.dmOpen :: (line ++ [Tok.dmClose])) ∧
      save s' false = s'.long_results.map (fun line => Tok.dmOpen :: (line ++ [Tok.dmClose])) ∧
      (save s' true).length = qs.length ∧
      (save s' false).length = qs.length := by
  obtain ⟨cds, hlen, hs, hl⟩ := runLog_eq oracle qs ⟨[], []⟩ s' hrun
  simp only [List.nil_append] at hs hl
  exact ⟨cds, hlen, hs, hl, by simp [hs, hlen], by simp [hl, hlen], rfl, rfl,
    by simp [save, hs, hlen], by simp [save, hl, hlen]⟩

/-- C9 witness: a one-request log run, evaluated concretely. -/
theorem C9_log_alignment_witness :
    ∃ cds : List ConjData,
      cds.length = 1 ∧
      [fmtConj (ConjData.sumEq ([0], [0]) ([0], [0]) ([0], [0])) (some true) true] =
        cds.map (fun cd => fmtConj cd (some true) true) ∧
      [fmtConj (ConjData.sumEq ([0], [0]) ([0], [0]) ([0], [0])) (some true) false] =
        cds.map (fun cd => fmtConj cd (some true) false) ∧
      ([fmtConj (ConjData.sumEq ([0], [0]) ([0], [0]) ([0], [0])) (some true) true] :
        List (List Tok)).length = 1 ∧
      ([fmtConj (ConjData.sumEq ([0], [0]) ([0], [0]) ([0], [0])) (some true) false] :
        List (List Tok)).length = 1 ∧
      save ⟨[fmtConj (ConjData.sumEq ([0], [0]) ([0], [0]) ([0], [0])) (some true) true],
            [fmtConj (ConjData.sumEq ([0], [0]) ([0], [0]) ([0], [0])) (some true) false]⟩
          true =
        [fmtConj (ConjData.sumEq ([0], [0]) ([0], [0]) ([0], [0])) (some true) true].map
          (fun line => Tok.dmOpen :: (line ++ [Tok.dmClose])) ∧
      save ⟨[fmtConj (ConjData.sumEq ([0], [0]) ([0], [0]) ([0], [0])) (some true) true],
            [fmtConj (ConjData.sumEq ([0], [0]) ([0], [0]) ([0], [0])) (some true) false]⟩
          false =
        [fmtConj (ConjData.sumEq ([0], [0]) ([0], [0]) ([0], [0])) (some true) false].map
          (fun line => Tok.dmOpen :: (line ++ [Tok.dmClose])) ∧
      (save ⟨[fmtConj (ConjData.sumEq ([0], [0]) ([0], [0]) ([0], [0])) (some true) true],
            [fmtConj (ConjData.sumEq ([0], [0]) ([0], [0]) ([0], [0])) (some true) false]⟩
          true).length = 1 ∧
      (save ⟨[fmtConj (ConjData.sumEq ([0], [0]) ([0], [0]) ([0], [0])) (some true) true],
            [fmtConj (ConjData.sumEq ([0], [0]) ([0], [0]) ([0], [0])) (some true) false]⟩
          false).length = 1 :=
  C9_log_alignment (fun _ => some true) [Req.sumEq ([0], [0]) ([0], [0]) ([0], [0])]
    ⟨[fmtConj (ConjData.sumEq ([0], [0]) ([0], [0]) ([0], [0])) (some true) true],
     [fmtConj (ConjData.sumEq ([0], [0]) ([0], [0]) ([0], [0])) (some true) false]⟩
    (by decide)

/-- C10: `Conjecture_increment.__init__` eagerly derives both minor
collections, one per position of `rows`; when `columns` is strictly
shorter than `rows` construction itself fails with an index error
(before `check()`/`format()` exist to be called), whereas when `columns`
is strictly longer construction succeeds (yielding `len(rows)`-sized
collections) and the mismatch only surfaces inside `check()`, when a
(non-square) minor is computed. -/
theorem C10_init_eager :
    (∀ (rows columns : List ℤ) (δ : ℤ), columns.length < rows.length →
      incInit rows columns δ = none) ∧
    (∀ (rows columns : List ℤ) (δ : ℤ), rows.length < columns.length →
      ∃ rm cm, incInit rows columns δ = some (rm, cm) ∧
        rm.length = rows.length ∧ cm.length = rows.length ∧
        (rows ≠ [] → ∀ (R : Type) [CommRing R] (h : ℤ → R),
          incCheckRun? h rm cm = none)) := by
  constructor
  · exact fun rows columns δ hlt => incInit_none_of_short rows columns δ hlt
  · intro rows columns δ hlt
    refine ⟨_, _, incInit_eq rows columns δ (le_of_lt hlt), by simp, by simp, ?_⟩
    intro hne R _ h
    have h0r : 0 < rows.length := List.length_pos.mpr hne
    have hex : ∃ m ∈ (List.range rows.length).map fun i =>
        (rows.set i (rows.getD i 0 + δ), columns), minor? h m.1 m.2 = none := by
      refine ⟨(rows.set 0 (rows.getD 0 0 + δ), columns),
        List.mem_map.mpr ⟨0, List.mem_range.mpr h0r, rfl⟩, minor?_none h _ _ ?_⟩
      simp only [List.length_set]
      omega
    have hsm : sumMinors? h ((List.range rows.length).map fun i =>
        (rows.set i (rows.getD i 0 + δ), columns)) = none := by
      rw [sumMinors?, omap_eq_none _ _ hex]
      rfl
    unfold incCheckRun?
    rw [hsm, Option.bind_eq_bind, Option.none_bind]

/-- C10 witness: both branches at concrete inputs. -/
theorem C10_init_eager_witness :
    incInit [0, 1] [5] 7 = none ∧
    ∃ rm cm, incInit [0] [1, 2] 7 = some (rm, cm) ∧ rm.length = 1 ∧ cm.length = 1 ∧
      incCheckRun? (R := ℤ) (fun _ => 0) rm cm = none := by
  obtain ⟨rm, cm, h1, h2, h3, h4⟩ := C10_init_eager.2 [0] [1, 2] 7 (by decide)
  exact ⟨C10_init_eager.1 [0, 1] [5] 7 (by decide), rm, cm, h1, h2, h3,
    h4 (by decide) ℤ (fun _ => 0)⟩

end Hankel
